import Mathlib

/-!
Verification of the pilosa distributed bitmap-index core against its
natural-language specification.

The development shallowly embeds the cluster partitioner, the consistent
hasher, the query executor's scatter/gather planner, and the `Index`
frame-management operations.  Machine integers are modelled as `Nat` with
explicit reduction modulo `2 ^ 64` where 64-bit overflow matters; Go
functions returning `(value, error)` are modelled with `Except`; in-place
mutation of a receiver is modelled by returning the updated value.
Disk and network I/O side effects (meta-file persistence, RPC transport)
are elided: an RPC reply is modelled as an oracle function argument and
file writes are assumed to succeed.
-/

namespace Pilosa

/-- Modelled from the spec: the 64-bit key-update step of the Lamping & Veach
jump consistent hash (`key = key*2862933555777941757 + 1`, 64-bit wrap-around);
the hasher implementation itself is absent from the source subset, only its
test vectors are present. -/
def jumpStep (key : Nat) : Nat :=
  (key * 2862933555777941757 + 1) % (2 ^ 64)

/-- Modelled from the spec: the loop body of the jump consistent hash.
State: `key` has already been updated for the current round, `b` is the
bucket chosen so far.  Computes `j = floor((b+1) * 2^31 / ((key >> 33) + 1))`
(the reference's double arithmetic expressed as exact floor division) and
keeps looping while `j < n`.  `fuel` bounds the recursion; `fuel = n` is
always enough because the chosen bucket strictly increases. -/
def jumpGo : Nat → Nat → Nat → Nat → Nat
  | _, _, b, 0 => b
  | key, n, b, fuel + 1 =>
    let j := (b + 1) * 2 ^ 31 / (key / 2 ^ 33 + 1)
    if j < n then jumpGo (jumpStep key) n j fuel else b

/-- Modelled from the spec: `jump_consistent_hash(key, numBuckets)`, the
Lamping & Veach reference algorithm, which the spec requires to be bit-exact
with the published test vectors.  For `n = 0` the reference returns `-1`;
here buckets are `Nat` and `n = 0` is mapped to `0` (never used: bucket
counts start at 1). -/
def jumpHash (key : Nat) (n : Nat) : Nat :=
  if n = 0 then 0 else jumpGo (jumpStep key) n 0 n

/-- C1: the consistent hash is bit-exact with the Lamping & Veach jump hash
reference vectors: `Hash(0, P) = 0` for `P` in `1..20`, `Hash(1, P)` for
`P = 1..19` yields `[0,0,0,0,0,0,6,6,6,6,6,6,6,6,6,6,6,17,17]`, and
`Hash(0xDEADBEEF, P)` for `P = 1..19` yields
`[0,1,2,3,3,5,5,5,5,5,5,5,5,5,5,5,16,16,16]`. -/
theorem jumpHash_reference_vectors :
    ((List.range 20).map (fun i => jumpHash 0 (i + 1)) = List.replicate 20 0)
    ∧ ((List.range 19).map (fun i => jumpHash 1 (i + 1)) =
        [0, 0, 0, 0, 0, 0, 6, 6, 6, 6, 6, 6, 6, 6, 6, 6, 6, 17, 17])
    ∧ ((List.range 19).map (fun i => jumpHash 0xdeadbeef (i + 1)) =
        [0, 1, 2, 3, 3, 5, 5, 5, 5, 5, 5, 5, 5, 5, 5, 5, 16, 16, 16]) := by
  decide

/-- A cluster node: host:port identity (`cluster.go` `Node`). -/
structure Node where
  host : String
deriving DecidableEq, Repr

instance : Inhabited Node := ⟨⟨""⟩⟩

/-- Node liveness states reported by `Cluster.Health`. -/
def NodeStateUp : String := "UP"

/-- Node liveness state for a configured host absent from the live member set. -/
def NodeStateDown : String := "DOWN"

/-- Modelled from the spec: the cluster is an ordered node list, a replica
count `R` and a swappable hasher; `cluster.go` is absent from the source
subset (only its tests are present).  `hashPartition` abstracts the
shard→partition layer (`jump_consistent_hash(fnv64(index+shard), P)`),
injected as a capability per the spec's design notes. -/
structure Cluster where
  nodes : List Node
  replicaN : Nat
  hashPartition : String → Nat → Nat

/-- Modelled from the spec: partition → owning nodes.  The first owner is
`partition_id mod N`; subsequent replicas follow the node list in ring
order; exactly `R` nodes are returned if `N ≥ R`, else `N` nodes. -/
def Cluster.partitionNodes (c : Cluster) (p : Nat) : List Node :=
  (List.range (min c.replicaN c.nodes.length)).map
    (fun i => c.nodes.getD ((p + i) % c.nodes.length) default)

/-- Modelled from the spec: shard → owning nodes, composing the
shard→partition hash with the partition→nodes ring walk. -/
def Cluster.fragmentNodes (c : Cluster) (index : String) (slice : Nat) : List Node :=
  c.partitionNodes (c.hashPartition index slice)

/-- Modelled from the spec: `Health` merges the configured node list with the
liveness view from the membership service (`members`): hosts in the
configured list but not live are DOWN; extra live hosts are ignored.
The Go map is modelled as an association list keyed by the configured
hosts in node-list order. -/
def Cluster.Health (c : Cluster) (members : List Node) : List (String × String) :=
  c.nodes.map (fun n =>
    (n.host, if n.host ∈ members.map Node.host then NodeStateUp else NodeStateDown))

/-- Indices `(p + i) % n` are pairwise distinct for `i` below `n`. -/
theorem ring_index_inj {n p i j : Nat} (hi : i < n) (hj : j < n)
    (h : (p + i) % n = (p + j) % n) : i = j := by
  have hmod : i % n = j % n := Nat.ModEq.add_left_cancel' p h
  rwa [Nat.mod_eq_of_lt hi, Nat.mod_eq_of_lt hj] at hmod

/-- C5: for every node list, replica count `R ≤ N` and partition `p`, the
owners of `p` are the `R` nodes starting at index `p mod N` and following
the node list in ring order; when the node list has no duplicates the `R`
owners are distinct, and the first owner is the node at `p mod N`. -/
theorem cluster_partitionNodes_ring (nodes : List Node) (r : Nat)
    (hp : String → Nat → Nat) (p : Nat)
    (hr : r ≤ nodes.length) (hnd : nodes.Nodup) :
    (Cluster.partitionNodes ⟨nodes, r, hp⟩ p).length = r
    ∧ Cluster.partitionNodes ⟨nodes, r, hp⟩ p =
        (List.range r).map (fun i => nodes.getD ((p + i) % nodes.length) default)
    ∧ (Cluster.partitionNodes ⟨nodes, r, hp⟩ p).Nodup
    ∧ (0 < r →
        (Cluster.partitionNodes ⟨nodes, r, hp⟩ p).head? =
          some (nodes.getD (p % nodes.length) default)) := by
  have hmin : min r nodes.length = r := Nat.min_eq_left hr
  refine ⟨?_, ?_, ?_, ?_⟩
  · simp [Cluster.partitionNodes, hmin]
  · simp [Cluster.partitionNodes, hmin]
  · have hn : 0 < nodes.length ∨ r = 0 := by omega
    rcases hn with hn | hz
    · unfold Cluster.partitionNodes
      rw [hmin]
      apply List.Nodup.map_on _ (List.nodup_range r)
      intro i hi j hj hf
      simp only [List.mem_range] at hi hj
      have hiN : (p + i) % nodes.length < nodes.length := Nat.mod_lt _ hn
      have hjN : (p + j) % nodes.length < nodes.length := Nat.mod_lt _ hn
      rw [nodes.getD_eq_getElem default hiN, nodes.getD_eq_getElem default hjN] at hf
      have hidx : (p + i) % nodes.length = (p + j) % nodes.length := by
        by_contra hne
        exact hne ((List.Nodup.getElem_inj_iff hnd).mp hf)
      exact ring_index_inj (lt_of_lt_of_le hi hr) (lt_of_lt_of_le hj hr) hidx
    · simp [Cluster.partitionNodes, hz]
  · intro hr0
    obtain ⟨k, rfl⟩ : ∃ k, r = k + 1 := ⟨r - 1, by omega⟩
    simp [Cluster.partitionNodes, hmin, List.range_succ_eq_map]

/-- C5 witness: with three nodes and `R = 2`, partition 0 maps to
`[serverA, serverB]` and partition 2 maps to `[serverC, serverA]`, each of
length 2, duplicate-free, led by the node at `p mod 3`. -/
theorem cluster_partitionNodes_ring_witness :
    ((Cluster.partitionNodes ⟨[⟨"serverA:1000"⟩, ⟨"serverB:1000"⟩, ⟨"serverC:1000"⟩], 2, fun _ s => s⟩ 0).length = 2
      ∧ Cluster.partitionNodes ⟨[⟨"serverA:1000"⟩, ⟨"serverB:1000"⟩, ⟨"serverC:1000"⟩], 2, fun _ s => s⟩ 0 =
          (List.range 2).map (fun i =>
            ([⟨"serverA:1000"⟩, ⟨"serverB:1000"⟩, ⟨"serverC:1000"⟩] : List Node).getD ((0 + i) % 3) default)
      ∧ (Cluster.partitionNodes ⟨[⟨"serverA:1000"⟩, ⟨"serverB:1000"⟩, ⟨"serverC:1000"⟩], 2, fun _ s => s⟩ 0).Nodup
      ∧ (0 < 2 →
          (Cluster.partitionNodes ⟨[⟨"serverA:1000"⟩, ⟨"serverB:1000"⟩, ⟨"serverC:1000"⟩], 2, fun _ s => s⟩ 0).head? =
            some (([⟨"serverA:1000"⟩, ⟨"serverB:1000"⟩, ⟨"serverC:1000"⟩] : List Node).getD (0 % 3) default)))
    ∧ Cluster.partitionNodes ⟨[⟨"serverA:1000"⟩, ⟨"serverB:1000"⟩, ⟨"serverC:1000"⟩], 2, fun _ s => s⟩ 0 =
        [⟨"serverA:1000"⟩, ⟨"serverB:1000"⟩]
    ∧ Cluster.partitionNodes ⟨[⟨"serverA:1000"⟩, ⟨"serverB:1000"⟩, ⟨"serverC:1000"⟩], 2, fun _ s => s⟩ 2 =
        [⟨"serverC:1000"⟩, ⟨"serverA:1000"⟩] :=
  ⟨cluster_partitionNodes_ring [⟨"serverA:1000"⟩, ⟨"serverB:1000"⟩, ⟨"serverC:1000"⟩] 2 (fun _ s => s) 0
      (by decide) (by decide),
    by decide, by decide⟩

/-- C7: for every cluster and live member set, `Health` returns a map whose
key sequence is exactly the hosts of the configured node list; a configured
host maps to UP precisely when it is in the live member set and to DOWN
otherwise, and no host outside the configured list appears. -/
theorem cluster_health_merges_liveness (c : Cluster) (members : List Node) :
    ((c.Health members).map Prod.fst = c.nodes.map Node.host)
    ∧ (∀ hst st, (hst, st) ∈ c.Health members →
        (st = NodeStateUp ∧ hst ∈ members.map Node.host)
        ∨ (st = NodeStateDown ∧ hst ∉ members.map Node.host))
    ∧ (∀ hst st, (hst, st) ∈ c.Health members → hst ∈ c.nodes.map Node.host) := by
  refine ⟨?_, ?_, ?_⟩
  · simp [Cluster.Health]
  · intro hst st hmem
    simp only [Cluster.Health, List.mem_map] at hmem
    obtain ⟨n, -, hn⟩ := hmem
    injection hn with h1 h2
    subst h1
    subst h2
    simp only [List.mem_map]
    by_cases hup : ∃ a ∈ members, a.host = n.host
    · left
      rw [if_pos hup]
      exact ⟨rfl, hup⟩
    · right
      rw [if_neg hup]
      exact ⟨rfl, hup⟩
  · intro hst st hmem
    simp only [Cluster.Health, List.mem_map] at hmem
    obtain ⟨n, hmemn, hn⟩ := hmem
    injection hn with h1 h2
    subst h1
    exact List.mem_map_of_mem Node.host hmemn

/-- C7 witness: three configured nodes, live members `serverA`, `serverC`
and an extraneous `serverD`: `serverB` is DOWN, `serverD` is ignored. -/
theorem cluster_health_merges_liveness_witness :
    (∀ hst st,
        (hst, st) ∈ Cluster.Health ⟨[⟨"serverA:1000"⟩, ⟨"serverB:1000"⟩, ⟨"serverC:1000"⟩], 1, fun _ s => s⟩
          [⟨"serverA:1000"⟩, ⟨"serverC:1000"⟩, ⟨"serverD:1000"⟩] →
        (st = NodeStateUp ∧ hst ∈ ([⟨"serverA:1000"⟩, ⟨"serverC:1000"⟩, ⟨"serverD:1000"⟩] : List Node).map Node.host)
        ∨ (st = NodeStateDown ∧ hst ∉ ([⟨"serverA:1000"⟩, ⟨"serverC:1000"⟩, ⟨"serverD:1000"⟩] : List Node).map Node.host))
    ∧ Cluster.Health ⟨[⟨"serverA:1000"⟩, ⟨"serverB:1000"⟩, ⟨"serverC:1000"⟩], 1, fun _ s => s⟩
        [⟨"serverA:1000"⟩, ⟨"serverC:1000"⟩, ⟨"serverD:1000"⟩] =
        [("serverA:1000", "UP"), ("serverB:1000", "DOWN"), ("serverC:1000", "UP")] :=
  ⟨(cluster_health_merges_liveness
      ⟨[⟨"serverA:1000"⟩, ⟨"serverB:1000"⟩, ⟨"serverC:1000"⟩], 1, fun _ s => s⟩
      [⟨"serverA:1000"⟩, ⟨"serverC:1000"⟩, ⟨"serverD:1000"⟩]).2.1,
    by decide⟩

/-- Default column label for an index (`DefaultColumnLabel = "columnID"`). -/
def DefaultColumnLabel : String := "columnID"

/-- Modelled from the spec: the default row label of a frame
(`frame.go` is absent from the source subset; the label check in
`Index.createFrame` compares against this constant). -/
def DefaultRowLabel : String := "rowID"

/-- Modelled from the spec: the default popularity-cache policy of a new
frame (`frame.go` absent; the spec lists none / LRU / ranked policies). -/
def DefaultCacheType : String := "lru"

/-- Modelled from the spec: the default popularity-cache size of a new
frame (`frame.go` absent). -/
def DefaultCacheSize : Nat := 50000

/-- Modelled from the spec: `IsValidCacheType` (absent from the source
subset); the spec's cache policies are none / LRU-by-cardinality /
fixed-rank. -/
def IsValidCacheType (v : String) : Bool :=
  v = "lru" || v = "ranked" || v = "none"

/-- Modelled from the spec: `TimeQuantum.Valid` (absent from the source
subset); a quantum is a contiguous run of Year/Month/Day/Hour, or empty. -/
def validTimeQuantum (q : String) : Bool :=
  q = "" || q = "Y" || q = "M" || q = "D" || q = "H" ||
  q = "YM" || q = "MD" || q = "DH" || q = "YMD" || q = "MDH" || q = "YMDH"

/-- A frame (a.k.a. field): the metadata fields touched by
`Index.createFrame`, plus the per-frame `MaxSlice` value abstracted as a
plain number (`frame.go` itself is absent from the source subset). -/
structure Frame where
  name : String
  rowLabel : String
  timeQuantum : String
  cacheType : String
  cacheSize : Nat
  inverseEnabled : Bool
  maxSlice : Nat
deriving DecidableEq, Repr

/-- Options passed to frame creation (`FrameOptions`). -/
structure FrameOptions where
  rowLabel : String
  inverseEnabled : Bool
  cacheType : String
  cacheSize : Nat
  timeQuantum : String
deriving DecidableEq, Repr

/-- Modelled from the spec: `NewFrame` defaults (`frame.go` absent): default
row label, empty time quantum, default cache policy and size, no data. -/
def newFrame (name : String) : Frame :=
  ⟨name, DefaultRowLabel, "", DefaultCacheType, DefaultCacheSize, false, 0⟩

/-- Errors returned by the `Index` frame operations (`ErrFrameExists`,
`errors.New("frame name required")`, `ErrInvalidCacheType`,
`ErrColumnRowLabelEqual`, `ErrInvalidTimeQuantum`). -/
inductive FrameError where
  | frameExists
  | frameNameRequired
  | invalidCacheType
  | columnRowLabelEqual
  | invalidTimeQuantum
deriving DecidableEq, Repr

/-- An index: a container for frames (`index.go` `Index`).  The frames map
is an association list; the attribute sidecar, input definitions and I/O
plumbing are elided.  In-place mutation is modelled by returning the
updated index. -/
structure Index where
  name : String
  columnLabel : String
  timeQuantum : String
  frames : List (String × Frame)
  remoteMaxSlice : Nat
  remoteMaxInverseSlice : Nat
deriving DecidableEq, Repr

/-- `Index.MaxSlice`: the max slice in the index according to this node —
starts from `remoteMaxSlice` and raises it past every local frame's
maximum (the `Stats.Gauge` side effect is elided). -/
def Index.MaxSlice (i : Index) : Nat :=
  i.frames.foldl (fun mx f => if f.2.maxSlice > mx then f.2.maxSlice else mx) i.remoteMaxSlice

/-- `Index.SetRemoteMaxSlice`: records the remote max slice value received
from another node. -/
def Index.SetRemoteMaxSlice (i : Index) (newmax : Nat) : Index :=
  { i with remoteMaxSlice := newmax }

/-- The frame-initialization section of `Index.createFrame`: a new frame's
defaults overridden by every non-empty (non-zero) option. -/
def createdFrame (i : Index) (name : String) (opt : FrameOptions) : Frame :=
  { newFrame name with
    timeQuantum := if opt.timeQuantum ≠ "" then opt.timeQuantum else i.timeQuantum
    cacheType := if opt.cacheType = "" then DefaultCacheType else opt.cacheType
    rowLabel := if opt.rowLabel ≠ "" then opt.rowLabel else (newFrame name).rowLabel
    cacheSize := if opt.cacheSize ≠ 0 then opt.cacheSize else (newFrame name).cacheSize
    inverseEnabled := opt.inverseEnabled }

/-- `Index.createFrame`: validates the name, the cache type, the row label
against the index's column label and the time quantum, then initializes the
frame with defaults overridden by the non-empty options and adds it to the
frame map (disk persistence elided). -/
def Index.createFrame (i : Index) (name : String) (opt : FrameOptions) :
    Except FrameError (Frame × Index) :=
  if name = "" then .error .frameNameRequired
  else if opt.cacheType ≠ "" ∧ ¬ IsValidCacheType opt.cacheType then .error .invalidCacheType
  else if i.columnLabel = opt.rowLabel ∨ (opt.rowLabel = "" ∧ i.columnLabel = DefaultRowLabel) then
    .error .columnRowLabelEqual
  else if ¬ validTimeQuantum (if opt.timeQuantum ≠ "" then opt.timeQuantum else i.timeQuantum) then
    .error .invalidTimeQuantum
  else
    .ok (createdFrame i name opt,
      { i with frames := (name, createdFrame i name opt) :: i.frames })

/-- `Index.CreateFrame`: fails with `ErrFrameExists` when the frame already
exists, otherwise defers to `createFrame`.  The returned index is the
post-call state (unchanged on error). -/
def Index.CreateFrame (i : Index) (name : String) (opt : FrameOptions) :
    Except FrameError Frame × Index :=
  match i.frames.lookup name with
  | some _ => (.error .frameExists, i)
  | none =>
    match i.createFrame name opt with
    | .error e => (.error e, i)
    | .ok (f, i2) => (.ok f, i2)

/-- `Index.CreateFrameIfNotExists`: returns the cached frame when present,
otherwise defers to `createFrame`. -/
def Index.CreateFrameIfNotExists (i : Index) (name : String) (opt : FrameOptions) :
    Except FrameError Frame × Index :=
  match i.frames.lookup name with
  | some f => (.ok f, i)
  | none =>
    match i.createFrame name opt with
    | .error e => (.error e, i)
    | .ok (f, i2) => (.ok f, i2)

/-- `Index.DeleteFrame`: ignores names with no frame, otherwise closes the
frame, deletes its directory and removes the map reference (the close and
directory removal are I/O, modelled as succeeding). -/
def Index.DeleteFrame (i : Index) (name : String) : Except FrameError Unit × Index :=
  match i.frames.lookup name with
  | none => (.ok (), i)
  | some _ => (.ok (), { i with frames := i.frames.filter (fun p => p.1 != name) })

/-- The running maximum computed by `Index.MaxSlice` never drops below its
starting accumulator. -/
theorem maxSlice_foldl_ge_init (l : List (String × Frame)) (acc : Nat) :
    acc ≤ l.foldl (fun mx f => if f.2.maxSlice > mx then f.2.maxSlice else mx) acc := by
  induction l generalizing acc with
  | nil => simp
  | cons x xs ih =>
    simp only [List.foldl_cons]
    refine le_trans ?_ (ih _)
    split <;> omega

/-- The running maximum computed by `Index.MaxSlice` dominates every
element's `maxSlice`. -/
theorem maxSlice_foldl_ge_mem (l : List (String × Frame)) (acc : Nat)
    (x : String × Frame) (hx : x ∈ l) :
    x.2.maxSlice ≤ l.foldl (fun mx f => if f.2.maxSlice > mx then f.2.maxSlice else mx) acc := by
  induction l generalizing acc with
  | nil => cases hx
  | cons y ys ih =>
    rcases List.mem_cons.mp hx with rfl | hx2
    · simp only [List.foldl_cons]
      refine le_trans ?_ (maxSlice_foldl_ge_init ys _)
      split <;> omega
    · exact ih _ hx2

/-- The running maximum computed by `Index.MaxSlice` is attained: it is the
accumulator or some element's `maxSlice`. -/
theorem maxSlice_foldl_attained (l : List (String × Frame)) (acc : Nat) :
    l.foldl (fun mx f => if f.2.maxSlice > mx then f.2.maxSlice else mx) acc = acc
    ∨ ∃ x ∈ l, l.foldl (fun mx f => if f.2.maxSlice > mx then f.2.maxSlice else mx) acc = x.2.maxSlice := by
  induction l generalizing acc with
  | nil => left; rfl
  | cons y ys ih =>
    simp only [List.foldl_cons]
    rcases ih (if y.2.maxSlice > acc then y.2.maxSlice else acc) with h | ⟨x, hx, heq⟩
    · rw [h]
      split at h
      · right
        exact ⟨y, List.mem_cons_self y ys, by split <;> omega⟩
      · left
        split <;> omega
    · right
      exact ⟨x, List.mem_cons_of_mem y hx, heq⟩

/-- C6: for every index, `MaxSlice` is at least the stored `remoteMaxSlice`
(hence at least the last value passed to `SetRemoteMaxSlice`), at least
every local frame's maximum, and is attained by one of them — i.e. it is
the maximum of the remotely advertised value and the per-frame maxima. -/
theorem index_maxSlice_is_max (i : Index) :
    i.remoteMaxSlice ≤ i.MaxSlice
    ∧ (∀ f ∈ i.frames, f.2.maxSlice ≤ i.MaxSlice)
    ∧ (∀ v, v ≤ (i.SetRemoteMaxSlice v).MaxSlice)
    ∧ (i.MaxSlice = i.remoteMaxSlice ∨ ∃ f ∈ i.frames, i.MaxSlice = f.2.maxSlice) := by
  refine ⟨maxSlice_foldl_ge_init _ _, ?_, ?_, maxSlice_foldl_attained _ _⟩
  · intro f hf
    exact maxSlice_foldl_ge_mem _ _ f hf
  · intro v
    exact maxSlice_foldl_ge_init _ _

/-- C6 witness: an index with `remoteMaxSlice = 3` and a frame whose max
slice is 5 has `MaxSlice ≥ 3`, `MaxSlice ≥ 5`, and after
`SetRemoteMaxSlice 7` has `MaxSlice ≥ 7`. -/
theorem index_maxSlice_is_max_witness :
    (Index.mk "i" DefaultColumnLabel "" [("f", Frame.mk "f" DefaultRowLabel "" "lru" 50000 false 5)] 3 0).remoteMaxSlice
        ≤ (Index.mk "i" DefaultColumnLabel "" [("f", Frame.mk "f" DefaultRowLabel "" "lru" 50000 false 5)] 3 0).MaxSlice
    ∧ (Frame.mk "f" DefaultRowLabel "" "lru" 50000 false 5).maxSlice
        ≤ (Index.mk "i" DefaultColumnLabel "" [("f", Frame.mk "f" DefaultRowLabel "" "lru" 50000 false 5)] 3 0).MaxSlice
    ∧ 7 ≤ ((Index.mk "i" DefaultColumnLabel "" [("f", Frame.mk "f" DefaultRowLabel "" "lru" 50000 false 5)] 3 0).SetRemoteMaxSlice 7).MaxSlice :=
  ⟨(index_maxSlice_is_max _).1,
    (index_maxSlice_is_max _).2.1 ("f", Frame.mk "f" DefaultRowLabel "" "lru" 50000 false 5)
      (by decide),
    (index_maxSlice_is_max _).2.2.1 7⟩

/-- C8: when a frame of the given name is already present, `CreateFrame`
fails with `ErrFrameExists` and leaves the index unchanged, while
`CreateFrameIfNotExists` returns the existing frame without error and also
leaves the index unchanged. -/
theorem index_createFrame_collision (i : Index) (name : String) (opt : FrameOptions)
    (f : Frame) (h : i.frames.lookup name = some f) :
    i.CreateFrame name opt = (.error .frameExists, i)
    ∧ i.CreateFrameIfNotExists name opt = (.ok f, i) := by
  unfold Index.CreateFrame Index.CreateFrameIfNotExists
  rw [h]
  exact ⟨rfl, rfl⟩

/-- C8 witness: on a concrete index holding frame `f`, `CreateFrame`
collides and `CreateFrameIfNotExists` returns the cached frame. -/
theorem index_createFrame_collision_witness :
    (Index.mk "i" DefaultColumnLabel "" [("f", newFrame "f")] 0 0).CreateFrame "f"
        (FrameOptions.mk "" false "" 0 "")
      = (.error .frameExists, Index.mk "i" DefaultColumnLabel "" [("f", newFrame "f")] 0 0)
    ∧ (Index.mk "i" DefaultColumnLabel "" [("f", newFrame "f")] 0 0).CreateFrameIfNotExists "f"
        (FrameOptions.mk "" false "" 0 "")
      = (.ok (newFrame "f"), Index.mk "i" DefaultColumnLabel "" [("f", newFrame "f")] 0 0) :=
  index_createFrame_collision (Index.mk "i" DefaultColumnLabel "" [("f", newFrame "f")] 0 0)
    "f" (FrameOptions.mk "" false "" 0 "") (newFrame "f") (by decide)

/-- After filtering a name out of the frame map, looking that name up
yields nothing. -/
theorem lookup_filter_ne (l : List (String × Frame)) (name : String) :
    (l.filter (fun p => p.1 != name)).lookup name = none := by
  induction l with
  | nil => rfl
  | cons x xs ih =>
    by_cases hx : x.1 = name
    · simp [List.filter_cons, hx, ih]
    · simp only [List.filter_cons]
      rw [if_pos (by simp [hx])]
      simp [List.lookup, show (name == x.1) = false by simp [Ne.symm hx], ih]

/-- C9: deleting a frame name that is not present returns success and
leaves the index unchanged; `DeleteFrame` always succeeds, and a second
delete of the same name succeeds and is a no-op — deletion is idempotent. -/
theorem index_deleteFrame_missing_idempotent (i : Index) (name : String) :
    (i.frames.lookup name = none → i.DeleteFrame name = (.ok (), i))
    ∧ (i.DeleteFrame name).1 = .ok ()
    ∧ (i.DeleteFrame name).2.DeleteFrame name = (.ok (), (i.DeleteFrame name).2) := by
  refine ⟨?_, ?_, ?_⟩
  · intro h
    unfold Index.DeleteFrame
    rw [h]
  · unfold Index.DeleteFrame
    cases hl : i.frames.lookup name <;> simp
  · unfold Index.DeleteFrame
    cases hl : i.frames.lookup name with
    | none => simp [hl]
    | some f => simp [lookup_filter_ne]

/-- C9 witness: on an index holding only frame `f`, deleting the absent
name `g` is a success-preserving no-op, and the second delete of `f` after
the first succeeds unchanged. -/
theorem index_deleteFrame_missing_idempotent_witness :
    (Index.mk "i" DefaultColumnLabel "" [("f", newFrame "f")] 0 0).DeleteFrame "g"
      = (.ok (), Index.mk "i" DefaultColumnLabel "" [("f", newFrame "f")] 0 0)
    ∧ ((Index.mk "i" DefaultColumnLabel "" [("f", newFrame "f")] 0 0).DeleteFrame "f").2.DeleteFrame "f"
      = (.ok (), ((Index.mk "i" DefaultColumnLabel "" [("f", newFrame "f")] 0 0).DeleteFrame "f").2) :=
  ⟨(index_deleteFrame_missing_idempotent
      (Index.mk "i" DefaultColumnLabel "" [("f", newFrame "f")] 0 0) "g").1 (by decide),
    (index_deleteFrame_missing_idempotent
      (Index.mk "i" DefaultColumnLabel "" [("f", newFrame "f")] 0 0) "f").2.2⟩

/-- C10 counterexample: with an empty frame name and a row label equal to
the index's column label, `createFrame` fails with the name-required error,
not with `ErrColumnRowLabelEqual` — so the claim's "fails with
ErrColumnRowLabelEqual whenever the labels collide" does not hold as
stated. -/
theorem index_createFrame_label_guard_counterexample :
    (Index.mk "i" DefaultColumnLabel "" [] 0 0).createFrame ""
        (FrameOptions.mk DefaultColumnLabel false "" 0 "")
      = .error .frameNameRequired
    ∧ (Index.mk "i" DefaultColumnLabel "" [] 0 0).createFrame ""
        (FrameOptions.mk DefaultColumnLabel false "" 0 "")
      ≠ .error .columnRowLabelEqual := by
  refine ⟨rfl, ?_⟩
  rw [show (Index.mk "i" DefaultColumnLabel "" [] 0 0).createFrame ""
        (FrameOptions.mk DefaultColumnLabel false "" 0 "")
      = .error .frameNameRequired from rfl]
  simp only [ne_eq, Except.error.injEq]
  decide

/-- C10 (amended): when the name is nonempty and the cache type is empty or
valid, `createFrame` fails with `ErrColumnRowLabelEqual` whenever the
option's row label equals the index's column label, or the row label is
empty and the column label equals the default row label; and every frame
that `createFrame` successfully returns has a row label different from the
column label the index held at creation time. -/
theorem index_createFrame_label_guard (i : Index) (name : String) (opt : FrameOptions) :
    (name ≠ "" → (opt.cacheType = "" ∨ IsValidCacheType opt.cacheType) →
      (i.columnLabel = opt.rowLabel ∨ (opt.rowLabel = "" ∧ i.columnLabel = DefaultRowLabel)) →
      i.createFrame name opt = .error .columnRowLabelEqual)
    ∧ (∀ f i2, i.createFrame name opt = .ok (f, i2) → f.rowLabel ≠ i.columnLabel) := by
  constructor
  · intro hname hcache hlabel
    unfold Index.createFrame
    rw [if_neg hname]
    rw [if_neg (by
      rintro ⟨hct, hvalid⟩
      rcases hcache with h | h
      · exact hct h
      · exact hvalid h)]
    rw [if_pos hlabel]
  · intro f i2 hok
    unfold Index.createFrame at hok
    by_cases hname : name = ""
    · rw [if_pos hname] at hok
      simp at hok
    rw [if_neg hname] at hok
    by_cases hct : opt.cacheType ≠ "" ∧ ¬ IsValidCacheType opt.cacheType
    · rw [if_pos hct] at hok
      simp at hok
    rw [if_neg hct] at hok
    by_cases hlabel : i.columnLabel = opt.rowLabel ∨ (opt.rowLabel = "" ∧ i.columnLabel = DefaultRowLabel)
    · rw [if_pos hlabel] at hok
      simp at hok
    rw [if_neg hlabel] at hok
    by_cases htq : ¬ validTimeQuantum (if opt.timeQuantum ≠ "" then opt.timeQuantum else i.timeQuantum)
    · rw [if_pos htq] at hok
      simp at hok
    rw [if_neg htq] at hok
    simp only [Except.ok.injEq, Prod.mk.injEq] at hok
    obtain ⟨hf, -⟩ := hok
    subst hf
    by_cases hrl : opt.rowLabel = ""
    · have heq : (createdFrame i name opt).rowLabel = DefaultRowLabel := by
        simp [createdFrame, newFrame, hrl]
      rw [heq]
      intro hc
      exact hlabel (Or.inr ⟨hrl, hc.symm⟩)
    · have heq : (createdFrame i name opt).rowLabel = opt.rowLabel := by
        simp [createdFrame, hrl]
      rw [heq]
      intro hc
      exact hlabel (Or.inl hc.symm)

/-- C10 amended-claim witness: on a fresh index with the default column
label, creating frame `f` with row label `columnID` fails with
`ErrColumnRowLabelEqual`. -/
theorem index_createFrame_label_guard_witness :
    (Index.mk "i" DefaultColumnLabel "" [] 0 0).createFrame "f"
        (FrameOptions.mk DefaultColumnLabel false "" 0 "")
      = .error .columnRowLabelEqual :=
  (index_createFrame_label_guard (Index.mk "i" DefaultColumnLabel "" [] 0 0) "f"
      (FrameOptions.mk DefaultColumnLabel false "" 0 "")).1
    (by decide) (Or.inl rfl) (Or.inl rfl)

/-- Shard (slice) width `W`: a column `c` belongs to shard `c / W`
(`SliceWidth = 2^20`). -/
def SliceWidth : Nat := 2 ^ 20

/-- Width of one container: `2^16` consecutive column positions. -/
def ContainerWidth : Nat := 65536

/-- Modelled from the spec: a Bitmap is the ordered sequence of
`(key, container)` pairs with strictly increasing keys; the container for a
key covers column positions `[key*2^16, (key+1)*2^16)` and is modelled as a
`Nat` bit mask (`bitmap.go` is absent from the source subset). -/
abbrev Bitmap := List (Nat × Nat)

/-- Offsets of the set bits of a mask, ascending; `fuel`-bounded binary
recursion (`fuel ≥ m` is always enough). -/
def bitsOfAux : Nat → Nat → List Nat
  | _, 0 => []
  | 0, _ => []
  | fuel + 1, m =>
    if m % 2 = 1 then 0 :: (bitsOfAux fuel (m / 2)).map (· + 1)
    else (bitsOfAux fuel (m / 2)).map (· + 1)

/-- Offsets of the set bits of a container mask, ascending. -/
def bitsOf (m : Nat) : List Nat := bitsOfAux m m

/-- Insert a column position into a Bitmap: locate (or create) the container
keyed by the high bits `pos / 2^16` and set the low-bit `pos % 2^16`. -/
def bmSet : Bitmap → Nat → Bitmap
  | [], pos => [(pos / ContainerWidth, 2 ^ (pos % ContainerWidth))]
  | (k, c) :: rest, pos =>
    if pos / ContainerWidth < k then
      (pos / ContainerWidth, 2 ^ (pos % ContainerWidth)) :: (k, c) :: rest
    else if pos / ContainerWidth = k then
      (k, c ||| 2 ^ (pos % ContainerWidth)) :: rest
    else
      (k, c) :: bmSet rest pos

/-- Merge loop of the Bitmap union; `fuel`-bounded (the sum of the input
lengths is always enough, each step consumes at least one entry). -/
def bmUnionAux : Nat → Bitmap → Bitmap → Bitmap
  | 0, _, _ => []
  | _ + 1, [], ys => ys
  | _ + 1, x :: xs, [] => x :: xs
  | fuel + 1, (k1, c1) :: xs, (k2, c2) :: ys =>
    if k1 < k2 then (k1, c1) :: bmUnionAux fuel xs ((k2, c2) :: ys)
    else if k2 < k1 then (k2, c2) :: bmUnionAux fuel ((k1, c1) :: xs) ys
    else (k1, c1 ||| c2) :: bmUnionAux fuel xs ys

/-- Modelled from the spec: Bitmap union by co-iterating the two key
streams — equal keys combine their containers, keys present on one side
are copied. -/
def bmUnion (a b : Bitmap) : Bitmap := bmUnionAux (a.length + b.length) a b

/-- The column positions contained in a Bitmap's chunks, in chunk order. -/
def bmPositions (bm : Bitmap) : List Nat :=
  (bm.map (fun c => (bitsOf c.2).map (fun o => c.1 * ContainerWidth + o))).flatten

/-- `Bitmap.Count`: the sum of the container cardinalities. -/
def bmCount (bm : Bitmap) : Nat :=
  (bm.map (fun c => (bitsOf c.2).length)).sum

/-- The bits of one fragment, as the list of set `(row, col)` pairs;
`col` is the global column id, restricted by construction to the
fragment's shard range. -/
abbrev FragBits := List (Nat × Nat)

/-- Set one bit in a fragment (idempotent). -/
def fragSetBit (bits : FragBits) (row col : Nat) : FragBits :=
  if (row, col) ∈ bits then bits else bits ++ [(row, col)]

/-- `Fragment.Bitmap(row)`: the row's columns as a Bitmap keyed by the
high-16 column bits. -/
def fragRow (bits : FragBits) (row : Nat) : Bitmap :=
  ((bits.filter (fun b => b.1 == row)).map Prod.snd).foldl bmSet []

/-- The row's cardinality in one fragment: `Bitmap(row).Count()`. -/
def fragCount (bits : FragBits) (row : Nat) : Nat :=
  bmCount (fragRow bits row)

/-- The local fragment store of a node: `(index, frame, slice) ↦ bits`,
as an association list (fragments are created lazily on first write). -/
abbrev Holder := List ((String × String × Nat) × FragBits)

/-- The fragment for a key, empty when not yet created. -/
def holderFrag (h : Holder) (index frame : String) (slice : Nat) : FragBits :=
  (h.lookup (index, frame, slice)).getD []

/-- Set a bit in the fragment for a key, creating the fragment lazily. -/
def holderSetBit : Holder → (String × String × Nat) → Nat → Nat → Holder
  | [], k, row, col => [(k, [(row, col)])]
  | (k2, bits) :: t, k, row, col =>
    if k2 = k then (k2, fragSetBit bits row col) :: t
    else (k2, bits) :: holderSetBit t k row col

/-- The max slice of an index according to this node: the maximum over the
local fragments' slices and the remotely advertised `remoteMaxSlice`. -/
def holderMaxSlice (h : Holder) (index : String) (remoteMax : Nat) : Nat :=
  h.foldl (fun mx f => if f.1.1 = index ∧ mx < f.1.2.2 then f.1.2.2 else mx) remoteMax

/-- Modelled from the spec: the query executor — the host it runs on and
the cluster it consults for shard ownership (`executor.go` is absent from
the source subset, only its tests are present). -/
structure Executor where
  host : String
  cluster : Cluster

/-- A slice is local when this executor's host is among the slice's
replica owners. -/
def Executor.localSlice (e : Executor) (index : String) (s : Nat) : Bool :=
  (e.cluster.fragmentNodes index s).any (fun n => n.host == e.host)

/-- The node a non-local slice is dispatched to: the slice's first owner. -/
def Executor.sliceHost (e : Executor) (index : String) (s : Nat) : String :=
  ((e.cluster.fragmentNodes index s).headD default).host

/-- The remote hosts of a scatter plan: owners of the non-local slices,
in first-appearance order, each named once. -/
def Executor.remoteHosts (e : Executor) (index : String) (slices : List Nat) : List String :=
  ((slices.filter (fun s => ! e.localSlice index s)).map (e.sliceHost index)).dedup

/-- The slice group carried by the remote RPC to one host. -/
def Executor.remoteSlicesFor (e : Executor) (index : String) (slices : List Nat)
    (hst : String) : List Nat :=
  slices.filter (fun s => ! e.localSlice index s && e.sliceHost index s == hst)

/-- The target slice set of a read query: `0 .. maxSlice(index)`. -/
def Executor.planSlices (_e : Executor) (h : Holder) (remoteMax : Nat) (index : String) :
    List Nat :=
  List.range (holderMaxSlice h index remoteMax + 1)

/-- Modelled from the spec: executing `count(get(id=row, frame))` — the
local slices are counted against the local fragments, each remote group is
one RPC whose reply is given by `oracle`, and the per-shard counts are
summed. -/
def Executor.executeCount (e : Executor) (h : Holder) (remoteMax : Nat)
    (oracle : String → List Nat → Nat) (index frame : String) (row : Nat) : Nat :=
  let slices := e.planSlices h remoteMax index
  ((slices.filter (fun s => e.localSlice index s)).map
      (fun s => fragCount (holderFrag h index frame s) row)).sum
  + ((e.remoteHosts index slices).map
      (fun hst => oracle hst (e.remoteSlicesFor index slices hst))).sum

/-- Modelled from the spec: executing `get(id=row, frame)` — the union of
the per-shard row Bitmaps, local slices read from the local fragments and
each remote group answered by `oracle`. -/
def Executor.executeGet (e : Executor) (h : Holder) (remoteMax : Nat)
    (oracle : String → List Nat → Bitmap) (index frame : String) (row : Nat) : Bitmap :=
  let slices := e.planSlices h remoteMax index
  bmUnion
    (((slices.filter (fun s => e.localSlice index s)).map
        (fun s => fragRow (holderFrag h index frame s) row)).foldl bmUnion [])
    (((e.remoteHosts index slices).map
        (fun hst => oracle hst (e.remoteSlicesFor index slices hst))).foldl bmUnion [])

/-- The outcome of a mutation: the updated local fragments and the remote
set calls issued, as `(host, frame, row, col)` records. -/
structure SetOutcome where
  holder : Holder
  remote : List (String × String × Nat × Nat)
deriving DecidableEq, Repr

/-- Modelled from the spec: executing `set(id=row, frame, col)` — the
mutation is dispatched to every replica owner of the target shard
`col / SliceWidth`: applied to the local fragment when the owner is this
host, recorded as a remote set call otherwise. -/
def Executor.executeSet (e : Executor) (h : Holder) (index frame : String)
    (row col : Nat) : SetOutcome :=
  (e.cluster.fragmentNodes index (col / SliceWidth)).foldl
    (fun acc n =>
      if n.host = e.host then
        { acc with
          holder := holderSetBit acc.holder (index, frame, col / SliceWidth) row col }
      else
        { acc with remote := acc.remote ++ [(n.host, frame, row, col)] })
    ⟨h, []⟩

/-- A power-of-two mask has exactly its exponent as set bit (any
sufficient fuel). -/
theorem bitsOfAux_two_pow : ∀ (n fuel : Nat), 2 ^ n ≤ fuel → bitsOfAux fuel (2 ^ n) = [n] := by
  intro n
  induction n with
  | zero =>
    intro fuel hf
    obtain ⟨f, rfl⟩ : ∃ f, fuel = f + 1 := ⟨fuel - 1, by omega⟩
    simp [bitsOfAux]
  | succ k ih =>
    intro fuel hf
    have h2 : 2 ^ (k + 1) = 2 * 2 ^ k := by rw [Nat.pow_succ]; ring
    have hkpos : 0 < 2 ^ k := Nat.pos_pow_of_pos k (by omega)
    obtain ⟨f, rfl⟩ : ∃ f, fuel = f + 1 := ⟨fuel - 1, by omega⟩
    obtain ⟨m, hm⟩ : ∃ m, 2 ^ (k + 1) = m + 1 := ⟨2 ^ (k + 1) - 1, by omega⟩
    rw [hm]
    show (if (m + 1) % 2 = 1 then 0 :: (bitsOfAux f ((m + 1) / 2)).map (· + 1)
          else (bitsOfAux f ((m + 1) / 2)).map (· + 1)) = [k + 1]
    rw [← hm]
    have hmod : 2 ^ (k + 1) % 2 = 0 := by omega
    have hdiv : 2 ^ (k + 1) / 2 = 2 ^ k := by omega
    rw [if_neg (by omega), hdiv, ih f (by omega)]
    rfl

/-- A power-of-two container mask holds exactly one position: its
exponent. -/
theorem bitsOf_two_pow (n : Nat) : bitsOf (2 ^ n) = [n] :=
  bitsOfAux_two_pow n (2 ^ n) le_rfl

/-- C2: on a two-node cluster with replica count 2, executing a set
mutation dispatches to every replica owner of the target shard: whatever
the shard→partition hash, after the query the bit is present in the local
node's fragment — the row's bitmap count is 1 — and a remote set call
carrying the same arguments was issued to the other node. -/
theorem executor_set_replicates (h0 h1 : String) (hp : String → Nat → Nat)
    (index frame : String) (row col : Nat) (hne : h0 ≠ h1) :
    fragCount
        (holderFrag
          (Executor.executeSet ⟨h0, ⟨[⟨h0⟩, ⟨h1⟩], 2, hp⟩⟩ [] index frame row col).holder
          index frame (col / SliceWidth)) row = 1
    ∧ (h1, frame, row, col)
        ∈ (Executor.executeSet ⟨h0, ⟨[⟨h0⟩, ⟨h1⟩], 2, hp⟩⟩ [] index frame row col).remote := by
  have hcount : fragCount [(row, col)] row = 1 := by
    simp [fragCount, fragRow, bmSet, bmCount, bitsOf_two_pow]
  have howners :
      Cluster.fragmentNodes ⟨[⟨h0⟩, ⟨h1⟩], 2, hp⟩ index (col / SliceWidth) = [⟨h0⟩, ⟨h1⟩]
      ∨ Cluster.fragmentNodes ⟨[⟨h0⟩, ⟨h1⟩], 2, hp⟩ index (col / SliceWidth) = [⟨h1⟩, ⟨h0⟩] := by
    unfold Cluster.fragmentNodes Cluster.partitionNodes
    rcases Nat.mod_two_eq_zero_or_one (hp index (col / SliceWidth)) with h | h
    · left
      have h' : (hp index (col / SliceWidth) + 1) % 2 = 1 := by omega
      simp [List.range_succ, h, h']
    · right
      have h' : (hp index (col / SliceWidth) + 1) % 2 = 0 := by omega
      simp [List.range_succ, h, h']
  rcases howners with hN | hN
  · constructor
    · simp only [Executor.executeSet, hN, List.foldl_cons, List.foldl_nil]
      rw [if_neg (Ne.symm hne)]
      simpa [holderSetBit, fragSetBit, holderFrag, List.lookup] using hcount
    · simp only [Executor.executeSet, hN, List.foldl_cons, List.foldl_nil]
      rw [if_neg (Ne.symm hne)]
      simp
  · constructor
    · simp only [Executor.executeSet, hN, List.foldl_cons, List.foldl_nil]
      rw [if_neg (Ne.symm hne)]
      simpa [holderSetBit, fragSetBit, holderFrag, List.lookup] using hcount
    · simp only [Executor.executeSet, hN, List.foldl_cons, List.foldl_nil]
      rw [if_neg (Ne.symm hne)]
      simp

/-- C2 witness: the test scenario — hosts `a`,`b`, identity partition hash,
`set(id=10, frame=f, col=2)` — leaves one bit locally and one remote set
call to `b`. -/
theorem executor_set_replicates_witness :
    fragCount
        (holderFrag
          (Executor.executeSet ⟨"a", ⟨[⟨"a"⟩, ⟨"b"⟩], 2, fun _ s => s⟩⟩ [] "d" "f" 10 2).holder
          "d" "f" (2 / SliceWidth)) 10 = 1
    ∧ ("b", "f", 10, 2)
        ∈ (Executor.executeSet ⟨"a", ⟨[⟨"a"⟩, ⟨"b"⟩], 2, fun _ s => s⟩⟩ [] "d" "f" 10 2).remote :=
  executor_set_replicates "a" "b" (fun _ s => s) "d" "f" 10 2 (by decide)

/-- Summing over a duplicate-free key list where exactly one key is
distinguished adds the distinguished contribution once. -/
theorem sum_if_mem (z : String) (a : Nat) (g : String → Nat) :
    ∀ K : List String, K.Nodup → z ∈ K →
      (K.map (fun x => if z = x then a + g x else g x)).sum = a + (K.map g).sum := by
  intro K
  induction K with
  | nil => intro _ hz; cases hz
  | cons w K' ih =>
    intro hnd hz
    rcases List.mem_cons.mp hz with rfl | hz'
    · have hout : z ∉ K' := (List.nodup_cons.mp hnd).1
      have hrest : K'.map (fun x => if z = x then a + g x else g x) = K'.map g := by
        apply List.map_congr_left
        intro x hx
        have hne : z ≠ x := by
          intro he
          rw [he] at hout
          exact hout hx
        rw [if_neg hne]
      simp [hrest, Nat.add_assoc]
    · have hne : z ≠ w := fun he => (List.nodup_cons.mp hnd).1 (he ▸ hz')
      have := ih (List.nodup_cons.mp hnd).2 hz'
      simp only [List.map_cons, List.sum_cons, if_neg hne, this]
      omega

/-- Grouping a list by key and summing group-by-group equals summing the
list directly, for any duplicate-free key list covering every element. -/
theorem groupBy_sum (k : Nat → String) (f : Nat → Nat) :
    ∀ (M : List Nat) (K : List String), K.Nodup → (∀ y ∈ M, k y ∈ K) →
      (K.map (fun x => ((M.filter (fun z => k z == x)).map f).sum)).sum
        = (M.map f).sum := by
  intro M
  induction M with
  | nil => simp
  | cons y M' ih =>
    intro K hnd hmem
    have hcong : ∀ x ∈ K,
        (((y :: M').filter (fun z => k z == x)).map f).sum
          = if k y = x then f y + ((M'.filter (fun z => k z == x)).map f).sum
            else ((M'.filter (fun z => k z == x)).map f).sum := by
      intro x _
      by_cases h : k y = x <;> simp [List.filter_cons, h]
    rw [List.map_congr_left hcong,
      sum_if_mem (k y) (f y) _ K hnd (hmem y (List.mem_cons_self y M')),
      ih K hnd (fun z hz => hmem z (List.mem_cons_of_mem y hz))]
    simp

/-- Splitting a sum along a predicate: the filtered-in part with one
weight plus the filtered-out part with another equals one pass with the
pointwise choice. -/
theorem sum_filter_split (L : List Nat) (p : Nat → Bool) (f g : Nat → Nat) :
    ((L.filter p).map f).sum + ((L.filter (fun x => ! p x)).map g).sum
      = (L.map (fun x => if p x then f x else g x)).sum := by
  induction L with
  | nil => rfl
  | cons y L' ih =>
    by_cases h : p y <;> simp [List.filter_cons, h, ← ih] <;> omega

/-- C3: a count query sums the per-shard counts.  Generally: when every
remote reply is itself the sum of the per-shard counts of its slice group,
the executor's result is the sum, over all planned shards, of that shard's
count — local shards counted from the local fragments, remote shards from
the remote counts.  Concretely: with local shard counts summing to 2 and
the remote node returning 10 the query returns 12, and on a single node
with per-shard counts 1 and 2 for row 10, count returns 3. -/
theorem executor_count_sums_shards :
    (∀ (e : Executor) (h : Holder) (remoteMax : Nat) (cnt : Nat → Nat)
        (index frame : String) (row : Nat),
      Executor.executeCount e h remoteMax (fun _ ss => (ss.map cnt).sum) index frame row
        = ((e.planSlices h remoteMax index).map
            (fun s => if e.localSlice index s then fragCount (holderFrag h index frame s) row
              else cnt s)).sum)
    ∧ Executor.executeCount ⟨"a", ⟨[⟨"a"⟩, ⟨"b"⟩], 1, fun _ s => s⟩⟩
        [(("d", "f", 0), [(10, 1), (10, 2)])] 1 (fun _ _ => 10) "d" "f" 10 = 12
    ∧ Executor.executeCount ⟨"a", ⟨[⟨"a"⟩], 1, fun _ s => s⟩⟩
        [(("d", "f", 0), [(10, 3)]),
          (("d", "f", 1), [(10, SliceWidth + 1), (10, SliceWidth + 2)])]
        0 (fun _ _ => 0) "d" "f" 10 = 3 := by
  refine ⟨?_, by decide, by decide⟩
  intro e h remoteMax cnt index frame row
  unfold Executor.executeCount Executor.remoteHosts Executor.remoteSlicesFor
  have hfilter : ∀ hst : String,
      (e.planSlices h remoteMax index).filter
          (fun s => ! e.localSlice index s && e.sliceHost index s == hst)
        = ((e.planSlices h remoteMax index).filter (fun s => ! e.localSlice index s)).filter
            (fun s => e.sliceHost index s == hst) := by
    intro hst
    rw [List.filter_filter]
    exact List.filter_congr (fun x _ => by rw [Bool.and_comm])
  have hgroup :
      ((((e.planSlices h remoteMax index).filter (fun s => ! e.localSlice index s)).map
            (e.sliceHost index)).dedup.map
          (fun hst =>
            ((((e.planSlices h remoteMax index).filter (fun s => ! e.localSlice index s)).filter
                (fun s => e.sliceHost index s == hst)).map cnt).sum)).sum
        = (((e.planSlices h remoteMax index).filter (fun s => ! e.localSlice index s)).map
            cnt).sum := by
    apply groupBy_sum
    · exact List.nodup_dedup _
    · intro y hy
      exact List.mem_dedup.mpr (List.mem_map_of_mem (e.sliceHost index) hy)
  simp only [hfilter, hgroup]
  exact sum_filter_split _ _ _ _

/-- C4: after `setBit(row=10, col=3)` (shard 0) and
`setBit(row=10, col=W+1)` (shard 1) on a single-node cluster, the row
query returns the union of the per-shard Bitmaps: one chunk per shard with
distinct keys, containing exactly the positions `{3, W+1}`, of total
count 2. -/
theorem executor_get_unions_shards :
    Executor.executeGet ⟨"a", ⟨[⟨"a"⟩], 1, fun _ s => s⟩⟩
        ((Executor.executeSet ⟨"a", ⟨[⟨"a"⟩], 1, fun _ s => s⟩⟩
            ((Executor.executeSet ⟨"a", ⟨[⟨"a"⟩], 1, fun _ s => s⟩⟩ [] "d" "f" 10 3).holder)
            "d" "f" 10 (SliceWidth + 1)).holder)
        0 (fun _ _ => []) "d" "f" 10
      = [(0, 8), (16, 2)]
    ∧ bmPositions [(0, 8), (16, 2)] = [3, SliceWidth + 1]
    ∧ bmCount [(0, 8), (16, 2)] = 2
    ∧ (([(0, 8), (16, 2)] : Bitmap).map Prod.fst).Nodup := by
  refine ⟨by decide, by decide, by decide, by decide⟩

end Pilosa
